import Mathlib

/-!
Verification of the heuristic-statistics subsystem (`src/src/history.h`) of a
Stockfish fork: saturating counters (`StatsEntry`), the knight-magic perfect
hash (`KnightMagic` / `knight_attack_index`), the masking index functions
(`pawn_structure_index` and friends), and the multi-dimensional statistics
tables (`Stats` over `MultiArray`).

Machine integers are modelled as `Int`/`Nat` with explicit wraparound
(`% 2^64`) where the C++ code relies on unsigned overflow.  C++ signed
integer division truncates toward zero, which is `Int.tdiv` in Lean.
-/

namespace Stockfish

/-- `std::clamp(v, lo, hi)`: `v < lo ? lo : (hi < v ? hi : v)`. -/
def stdClamp (v lo hi : Int) : Int :=
  if v < lo then lo else if hi < v then hi else v

/-- `StatsEntry<T, D>::operator<<(int bonus)` from `src/src/history.h`
(lines 110–116): clamp the bonus to `[-D, D]`, then
`entry += clampedBonus - entry * std::abs(clampedBonus) / D` where `/` is C++
signed division (truncation toward zero, `Int.tdiv`).  Returns the new value
of `entry`. -/
def statsEntryUpdate (D entry bonus : Int) : Int :=
  let clampedBonus := stdClamp bonus (-D) D
  entry + clampedBonus - Int.tdiv (entry * |clampedBonus|) D

/-- The saturation bounds `D` of the `Stats` catalog instantiations in
`src/src/history.h` that use value type `int16_t`: `ButterflyHistory` and
`LowPlyHistory` (7183), `CapturePieceToHistory` (10692), `PieceToHistory`
(30000), `PawnHistory` and `TTMoveHistory` (8192), `KnightHistory` (5000),
and the correction histories (`CORRECTION_HISTORY_LIMIT = 1024`). -/
def catalogBounds : List Int := [7183, 10692, 30000, 8192, 5000, 1024]

section ClampLemmas

theorem stdClamp_mem (b D : Int) (hD : 0 < D) :
    -D ≤ stdClamp b (-D) D ∧ stdClamp b (-D) D ≤ D := by
  unfold stdClamp; split_ifs <;> omega

theorem stdClamp_neg (b D : Int) (hD : 0 ≤ D) :
    stdClamp (-b) (-D) D = -(stdClamp b (-D) D) := by
  unfold stdClamp; split_ifs <;> omega

theorem stdClamp_zero (D : Int) (hD : 0 < D) : stdClamp 0 (-D) D = 0 := by
  unfold stdClamp; split_ifs <;> omega

theorem stdClamp_hi (b D : Int) (hD : 0 < D) (hb : D ≤ b) : stdClamp b (-D) D = D := by
  unfold stdClamp; split_ifs <;> omega

theorem stdClamp_lo (b D : Int) (hD : 0 < D) (hb : b ≤ -D) : stdClamp b (-D) D = -D := by
  unfold stdClamp; split_ifs <;> omega

end ClampLemmas

section SaturationLemmas

/-- Upper half of the saturation invariant:
`entry + cb - tdiv (entry * |cb|) D ≤ D` whenever `|entry| ≤ D`. -/
theorem statsEntryUpdate_le (D entry bonus : Int) (hD : 0 < D)
    (hlo : -D ≤ entry) (hhi : entry ≤ D) : statsEntryUpdate D entry bonus ≤ D := by
  simp only [statsEntryUpdate]
  obtain ⟨hclo, hchi⟩ := stdClamp_mem bonus D hD
  set cb := stdClamp bonus (-D) D with hcb
  set x := entry * |cb| with hx
  have habs : 0 ≤ |cb| ∧ |cb| ≤ D := ⟨abs_nonneg _, abs_le.mpr ⟨hclo, hchi⟩⟩
  rcases le_or_lt 0 x with hxpos | hxneg
  · -- `tdiv` agrees with floor division on nonnegative numerators
    have htd : Int.tdiv x D = x / D := Int.tdiv_eq_ediv hxpos (le_of_lt hD)
    rw [htd]
    have hkey : (entry + cb - D) * D ≤ x := by
      rcases abs_cases cb with ⟨ha, _⟩ | ⟨ha, _⟩
      · nlinarith [mul_nonneg (sub_nonneg.mpr hhi) (sub_nonneg.mpr hchi)]
      · nlinarith [mul_nonneg (neg_nonneg.mpr (by linarith : cb ≤ 0))
          (by linarith : (0:Int) ≤ entry + D), mul_nonneg (sub_nonneg.mpr hhi) hD.le]
    have := (Int.le_ediv_iff_mul_le hD).mpr hkey
    omega
  · -- negative numerator: reduce to floor division of the negation
    have htd : Int.tdiv x D = -((-x) / D) := by
      have h1 : Int.tdiv (-(-x)) D = -(Int.tdiv (-x) D) := Int.neg_tdiv (-x) D
      rw [neg_neg] at h1
      rw [h1, Int.tdiv_eq_ediv (by omega) (le_of_lt hD)]
    rw [htd]
    have hkey : -x < (D - entry - cb + 1) * D := by
      rcases abs_cases cb with ⟨ha, _⟩ | ⟨ha, _⟩
      · nlinarith [mul_nonneg (sub_nonneg.mpr hchi) (sub_nonneg.mpr hhi)]
      · nlinarith [mul_nonneg (neg_nonneg.mpr (by linarith : cb ≤ 0))
          (by linarith : (0:Int) ≤ entry + D), mul_nonneg (sub_nonneg.mpr hhi) hD.le]
    have := (Int.ediv_lt_iff_lt_mul hD).mpr hkey
    omega

/-- The update rule is odd: negating both the entry and the bonus negates
the result. -/
theorem statsEntryUpdate_neg (D entry bonus : Int) (hD : 0 ≤ D) :
    statsEntryUpdate D (-entry) (-bonus) = -(statsEntryUpdate D entry bonus) := by
  simp only [statsEntryUpdate]
  rw [stdClamp_neg bonus D hD, abs_neg, neg_mul, Int.neg_tdiv]
  ring

/-- Saturation invariant, shared helper: for positive `D`, `|entry| ≤ D` and
any bonus, the updated value satisfies `|entry_new| ≤ D`. -/
theorem statsEntryUpdate_abs_le (D entry bonus : Int) (hD : 0 < D)
    (he : |entry| ≤ D) : |statsEntryUpdate D entry bonus| ≤ D := by
  obtain ⟨hlo, hhi⟩ := abs_le.mp he
  refine abs_le.mpr ⟨?_, statsEntryUpdate_le D entry bonus hD hlo hhi⟩
  have h := statsEntryUpdate_le D (-entry) (-bonus) hD (by omega) (by omega)
  rw [statsEntryUpdate_neg D entry bonus hD.le] at h
  omega

/-- A bonus at or above `D` saturates in one step (no `|entry| ≤ D` needed). -/
theorem statsEntryUpdate_hi (D entry bonus : Int) (hD : 0 < D) (hb : D ≤ bonus) :
    statsEntryUpdate D entry bonus = D := by
  simp only [statsEntryUpdate]
  rw [stdClamp_hi bonus D hD hb, abs_of_pos hD, Int.mul_tdiv_cancel entry (ne_of_gt hD)]
  ring

/-- A bonus at or below `-D` saturates to `-D` in one step. -/
theorem statsEntryUpdate_lo (D entry bonus : Int) (hD : 0 < D) (hb : bonus ≤ -D) :
    statsEntryUpdate D entry bonus = -D := by
  simp only [statsEntryUpdate]
  rw [stdClamp_lo bonus D hD hb, abs_neg, abs_of_pos hD,
    Int.mul_tdiv_cancel entry (ne_of_gt hD)]
  ring

end SaturationLemmas

/-- C1: saturation invariant of `StatsEntry::operator<<`: for every positive
bound `D` (in particular every catalog instantiation, whose `D` fits the value
type), every stored value with `|entry| ≤ D` and every bonus, the update
yields `|entry_new| ≤ D`, so the debug assertion `|entry| ≤ D` never fires. -/
theorem statsEntry_saturation (D entry bonus : Int) (hD : 0 < D)
    (he : |entry| ≤ D) : |statsEntryUpdate D entry bonus| ≤ D :=
  statsEntryUpdate_abs_le D entry bonus hD he

theorem statsEntry_saturation_witness :
    (0 : Int) < 100 ∧ |(75 : Int)| ≤ 100 ∧ |statsEntryUpdate 100 75 (-200)| ≤ 100 :=
  ⟨by decide, by decide, statsEntry_saturation 100 75 (-200) (by decide) (by decide)⟩

/-- C3: zero bonus is a true no-op: for positive `D` and every stored value,
updating with bonus `0` leaves the value exactly unchanged. -/
theorem statsEntry_zero_bonus_noop (D entry : Int) (hD : 0 < D) :
    statsEntryUpdate D entry 0 = entry := by
  simp only [statsEntryUpdate]
  rw [stdClamp_zero D hD]
  simp [Int.zero_tdiv]

theorem statsEntry_zero_bonus_noop_witness :
    (0 : Int) < 7183 ∧ statsEntryUpdate 7183 (-4321) 0 = -4321 :=
  ⟨by decide, statsEntry_zero_bonus_noop 7183 (-4321) (by decide)⟩

/-- C5: end-to-end scenario with bound `D = 100` starting at `0`:
`update 50` gives `50`, a second `update 50` gives `75`, and `update (-200)`
(clamped to `-100`) gives exactly `-100`. -/
theorem statsEntry_scenario :
    statsEntryUpdate 100 0 50 = 50 ∧
    statsEntryUpdate 100 50 50 = 75 ∧
    statsEntryUpdate 100 75 (-200) = -100 := by
  refine ⟨?_, ?_, ?_⟩ <;> decide

/-- C10: one-step saturation at a full-magnitude bonus: for positive `D` and
`|entry| ≤ D`, a single update with bonus `≥ D` yields exactly `D`, and a
single update with bonus `≤ -D` yields exactly `-D`. -/
theorem statsEntry_one_step_saturation (D entry bonus : Int) (hD : 0 < D)
    (_he : |entry| ≤ D) :
    (D ≤ bonus → statsEntryUpdate D entry bonus = D) ∧
    (bonus ≤ -D → statsEntryUpdate D entry bonus = -D) :=
  ⟨fun hb => statsEntryUpdate_hi D entry bonus hD hb,
   fun hb => statsEntryUpdate_lo D entry bonus hD hb⟩

theorem statsEntry_one_step_saturation_witness :
    (0 : Int) < 100 ∧ |(37 : Int)| ≤ 100 ∧
      ((100 ≤ (250 : Int) → statsEntryUpdate 100 37 250 = 100) ∧
       ((250 : Int) ≤ -100 → statsEntryUpdate 100 37 250 = -100)) :=
  ⟨by decide, by decide, statsEntry_one_step_saturation 100 37 250 (by decide) (by decide)⟩

/-- `n` successive applications of `operator<<` with a fixed bonus, starting
from `entry`. -/
def iterUpdate (D bonus entry : Int) : Nat → Int
  | 0 => entry
  | n + 1 => statsEntryUpdate D (iterUpdate D bonus entry n) bonus

/-- C4: monotone convergence at the bound: starting from `|entry| ≤ D` with
positive `D`, repeated updates with bonus `+D` form a non-decreasing sequence
that never exceeds `D` and equals `D` from the first update on; symmetrically,
repeated updates with bonus `-D` form a non-increasing sequence that never
drops below `-D` and equals `-D` from the first update on. -/
theorem statsEntry_convergence (D entry : Int) (hD : 0 < D) (he : |entry| ≤ D) :
    (∀ n, iterUpdate D D entry n ≤ iterUpdate D D entry (n + 1)) ∧
    (∀ n, iterUpdate D D entry n ≤ D) ∧
    (∀ n, 1 ≤ n → iterUpdate D D entry n = D) ∧
    (∀ n, iterUpdate D (-D) entry (n + 1) ≤ iterUpdate D (-D) entry n) ∧
    (∀ n, -D ≤ iterUpdate D (-D) entry n) ∧
    (∀ n, 1 ≤ n → iterUpdate D (-D) entry n = -D) := by
  have hup : ∀ n, iterUpdate D D entry (n + 1) = D := fun n =>
    statsEntryUpdate_hi D _ D hD le_rfl
  have hdn : ∀ n, iterUpdate D (-D) entry (n + 1) = -D := fun n =>
    statsEntryUpdate_lo D _ (-D) hD le_rfl
  obtain ⟨hlo, hhi⟩ := abs_le.mp he
  refine ⟨fun n => ?_, fun n => ?_, fun n hn => ?_, fun n => ?_, fun n => ?_,
    fun n hn => ?_⟩
  · cases n with
    | zero => rw [hup 0]; exact hhi
    | succ m => rw [hup m, hup (m + 1)]
  · cases n with
    | zero => exact hhi
    | succ m => rw [hup m]
  · obtain ⟨m, rfl⟩ := Nat.exists_eq_add_of_le hn
    rw [Nat.add_comm, hup m]
  · cases n with
    | zero => rw [hdn 0]; exact hlo
    | succ m => rw [hdn m, hdn (m + 1)]
  · cases n with
    | zero => exact hlo
    | succ m => rw [hdn m]
  · obtain ⟨m, rfl⟩ := Nat.exists_eq_add_of_le hn
    rw [Nat.add_comm, hdn m]

theorem statsEntry_convergence_witness :
    (0 : Int) < 100 ∧ |(-40 : Int)| ≤ 100 ∧
      ((∀ n, iterUpdate 100 100 (-40) n ≤ iterUpdate 100 100 (-40) (n + 1)) ∧
       (∀ n, iterUpdate 100 100 (-40) n ≤ 100) ∧
       (∀ n, 1 ≤ n → iterUpdate 100 100 (-40) n = 100) ∧
       (∀ n, iterUpdate 100 (-100) (-40) (n + 1) ≤ iterUpdate 100 (-100) (-40) n) ∧
       (∀ n, -100 ≤ iterUpdate 100 (-100) (-40) n) ∧
       (∀ n, 1 ≤ n → iterUpdate 100 (-100) (-40) n = -100)) :=
  ⟨by decide, by decide, statsEntry_convergence 100 (-40) (by decide) (by decide)⟩

/-- C9: no intermediate overflow for the catalog instantiations (value type
`int16_t`, bounds 7183, 10692, 30000, 8192, 5000, 1024): given `|entry| ≤ D`,
the intermediate product `entry * |clampedBonus|` and the full update
expression stay within 32-bit `int` range, and the final result fits in
`int16_t` without wraparound, for every integer bonus. -/
theorem statsEntry_no_overflow (D entry bonus : Int) (hD : D ∈ catalogBounds)
    (he : |entry| ≤ D) :
    |entry * abs (stdClamp bonus (-D) D)| ≤ 2 ^ 31 - 1 ∧
    |statsEntryUpdate D entry bonus| ≤ 2 ^ 31 - 1 ∧
    |statsEntryUpdate D entry bonus| ≤ 2 ^ 15 - 1 := by
  have hDpos : 0 < D ∧ D ≤ 30000 := by
    simp only [catalogBounds, List.mem_cons, List.not_mem_nil, or_false] at hD
    rcases hD with rfl | rfl | rfl | rfl | rfl | rfl <;> exact ⟨by decide, by decide⟩
  obtain ⟨hD0, hD30⟩ := hDpos
  have hcb : |stdClamp bonus (-D) D| ≤ D := by
    obtain ⟨h1, h2⟩ := stdClamp_mem bonus D hD0
    exact abs_le.mpr ⟨h1, h2⟩
  have hsat := statsEntryUpdate_abs_le D entry bonus hD0 he
  have hprod : |entry * abs (stdClamp bonus (-D) D)| ≤ 2 ^ 31 - 1 := by
    rw [abs_mul, abs_abs]
    calc |entry| * |stdClamp bonus (-D) D| ≤ D * D :=
          mul_le_mul he hcb (abs_nonneg _) (by omega)
      _ ≤ 2 ^ 31 - 1 := by nlinarith
  exact ⟨hprod, by omega, by omega⟩

theorem statsEntry_no_overflow_witness :
    (7183 : Int) ∈ catalogBounds ∧ |(7000 : Int)| ≤ 7183 ∧
      (|(7000 : Int) * abs (stdClamp 123456 (-7183) 7183)| ≤ 2 ^ 31 - 1 ∧
       |statsEntryUpdate 7183 7000 123456| ≤ 2 ^ 31 - 1 ∧
       |statsEntryUpdate 7183 7000 123456| ≤ 2 ^ 15 - 1) :=
  ⟨by decide, by decide, statsEntry_no_overflow 7183 7000 123456 (by decide) (by decide)⟩

/-! ## Masking index functions (`pawn_structure_index`, `minor_piece_index`,
`non_pawn_index`) -/

/-- `PawnHistoryType` from `src/src/history.h`. -/
inductive PawnHistoryType
  | Normal
  | Correction
deriving DecidableEq

/-- `PAWN_HISTORY_SIZE = 512` (history.h line 37). -/
def PAWN_HISTORY_SIZE : Nat := 512

/-- `CORRECTION_HISTORY_SIZE = 32768` (history.h line 38). -/
def CORRECTION_HISTORY_SIZE : Nat := 32768

/-- `pawn_structure_index<T>(pos)` (history.h lines 76–79):
`pos.pawn_key() & ((T == Normal ? PAWN_HISTORY_SIZE : CORRECTION_HISTORY_SIZE) - 1)`.
The opaque 64-bit pawn key is taken directly as the argument. -/
def pawn_structure_index (T : PawnHistoryType) (pawnKey : Nat) : Nat :=
  pawnKey &&&
    ((if T = PawnHistoryType.Normal then PAWN_HISTORY_SIZE else CORRECTION_HISTORY_SIZE) - 1)

/-- `minor_piece_index(pos)` (history.h lines 81–83):
`pos.minor_piece_key() & (CORRECTION_HISTORY_SIZE - 1)`. -/
def minor_piece_index (minorPieceKey : Nat) : Nat :=
  minorPieceKey &&& (CORRECTION_HISTORY_SIZE - 1)

/-- `non_pawn_index<c>(pos)` (history.h lines 85–88):
`pos.non_pawn_key(c) & (CORRECTION_HISTORY_SIZE - 1)`; the color only selects
which key the caller passes in. -/
def non_pawn_index (nonPawnKey : Nat) : Nat :=
  nonPawnKey &&& (CORRECTION_HISTORY_SIZE - 1)

/-- C6: the masking index functions compute an exact modulo, are in-bounds
and stable: for every key, `pawn_structure_index` is `key % 512` in `Normal`
mode and `key % 32768` in `Correction` mode, `minor_piece_index` and
`non_pawn_index` are `key % 32768`; each result is strictly below the
declared table size, and the same key always yields the same index. -/
theorem index_functions_mask_mod (key : Nat) :
    pawn_structure_index PawnHistoryType.Normal key = key % PAWN_HISTORY_SIZE ∧
    pawn_structure_index PawnHistoryType.Correction key = key % CORRECTION_HISTORY_SIZE ∧
    minor_piece_index key = key % CORRECTION_HISTORY_SIZE ∧
    non_pawn_index key = key % CORRECTION_HISTORY_SIZE ∧
    pawn_structure_index PawnHistoryType.Normal key < PAWN_HISTORY_SIZE ∧
    pawn_structure_index PawnHistoryType.Correction key < CORRECTION_HISTORY_SIZE ∧
    minor_piece_index key < CORRECTION_HISTORY_SIZE ∧
    non_pawn_index key < CORRECTION_HISTORY_SIZE ∧
    (∀ key2 : Nat, key2 = key →
      pawn_structure_index PawnHistoryType.Normal key2
          = pawn_structure_index PawnHistoryType.Normal key ∧
      pawn_structure_index PawnHistoryType.Correction key2
          = pawn_structure_index PawnHistoryType.Correction key ∧
      minor_piece_index key2 = minor_piece_index key ∧
      non_pawn_index key2 = non_pawn_index key) := by
  have h9 := Nat.and_pow_two_sub_one_eq_mod key 9
  have h15 := Nat.and_pow_two_sub_one_eq_mod key 15
  norm_num at h9 h15
  have hN : pawn_structure_index PawnHistoryType.Normal key = key % 512 := by
    simpa [pawn_structure_index, PAWN_HISTORY_SIZE] using h9
  have hC : pawn_structure_index PawnHistoryType.Correction key = key % 32768 := by
    simpa [pawn_structure_index, CORRECTION_HISTORY_SIZE] using h15
  have hM : minor_piece_index key = key % 32768 := by
    simpa [minor_piece_index, CORRECTION_HISTORY_SIZE] using h15
  have hP : non_pawn_index key = key % 32768 := by
    simpa [non_pawn_index, CORRECTION_HISTORY_SIZE] using h15
  refine ⟨hN, hC, hM, hP, ?_, ?_, ?_, ?_, fun key2 hk => by subst hk; exact ⟨rfl, rfl, rfl, rfl⟩⟩
  · rw [hN]; exact Nat.mod_lt key (by norm_num)
  · rw [hC]; exact Nat.mod_lt key (by norm_num)
  · rw [hM]; exact Nat.mod_lt key (by norm_num)
  · rw [hP]; exact Nat.mod_lt key (by norm_num)

/-! ## Knight-magic perfect hash -/

/-- `KnightMagic[64]`, the per-origin-square 64-bit magic constants
(history.h lines 53–69), transcribed verbatim. -/
def KnightMagic : List Nat :=
  [2649526798775546678, 4152603468059905820, 4323738553495348598, 8358822318513263564,
   8233741379241091944, 15862258506660595117, 11034153426427387283, 5179342299017078485,
   13953775647861833869, 9285332830472462433, 4707670090173510570, 633188408852161521,
   9295575317119436597, 2602449537074926626, 10402735044161298543, 5209354341409342328,
   162625749878507151, 1009651158123930541, 17868030413482491775, 18157387793351835647,
   18428448182976380927, 15559866339509124062, 15570116201671053920, 1155280919795624321,
   2486129120195482830, 13187947271813240921, 18406210577484414942, 18427602675714473387,
   18441114298743767039, 13816761900458831871, 6080440195611631637, 17058553541789489427,
   16801810908685894692, 10863528935562739968, 18302056847512170491, 13832238890018011135,
   18441604947771359199, 4539399656176549631, 10034574284689510417, 6922771568222818337,
   4170423972204183689, 13981410758149154305, 1458212938463817744, 14940013606182964225,
   10126812077910748164, 14499197477661460225, 10889334102842943525, 11449759955925008433,
   7662239901190162178, 10624671891104776129, 17829790316069208625, 834552698710835841,
   1569976736693633153, 18290846858870916161, 12326740164105761617, 5482981632183385993,
   9386590720569999446, 5202246693298479759, 15779688972541825106, 13366487713771978889,
   11198365102992539725, 15043574735303614497, 18334953575009493081, 975649118817374295]

/-- `knight_attack_index(Bitboard target, Square from)` (history.h lines
71–74): `(target * KnightMagic[from]) >> 56` with 64-bit unsigned
multiplication (modulo `2^64`). -/
def knight_attack_index (target sq : Nat) : Nat :=
  ((target * KnightMagic.getD sq 0) % 2 ^ 64) >>> 56

/-- The eight knight move offsets (file delta, rank delta). -/
def knightOffsets : List (Int × Int) :=
  [(1, 2), (2, 1), (2, -1), (1, -2), (-1, -2), (-2, -1), (-2, 1), (-1, 2)]

/-- Modelled from the spec: the knight-attack destination set comes from
`bitboard.h`, which is not under `src/`; the spec describes it as the
"squares reachable by a knight from `originSquare`".  Standard 8×8 knight
geometry with square index `rank * 8 + file`.  The resulting destination
squares are pairwise distinct. -/
def knightAttacks (sq : Nat) : List Nat :=
  knightOffsets.filterMap fun p =>
    let nf : Int := (sq % 8 : Nat) + p.1
    let nr : Int := (sq / 8 : Nat) + p.2
    if 0 ≤ nf ∧ nf < 8 ∧ 0 ≤ nr ∧ nr < 8 then some (nr * 8 + nf).toNat else none

/-- The bitboard of the subset of the square list `ks` selected by the bit
mask `m`: bit `i` of `m` picks the `i`-th square.  For pairwise distinct
squares this sum of distinct powers of two is exactly the bitwise union of
the selected squares. -/
def subsetBB : List Nat → Nat → Nat
  | [], _ => 0
  | k :: ks, m => (if m % 2 = 1 then 2 ^ k else 0) + subsetBB ks (m / 2)

/-- `2 ^ number of knight-attack destinations of `sq``: the number of
subsets of the attack set. -/
def maskCount (sq : Nat) : Nat := 2 ^ (knightAttacks sq).length

/-- The hash index of the subset of `sq`'s attack set selected by mask `m`. -/
def knightIdxOfMask (sq m : Nat) : Nat :=
  knight_attack_index (subsetBB (knightAttacks sq) m) sq

/-- Linear-time distinctness checker: `seen` is a bitset of values already
encountered. -/
def distinctAux : List Nat → Nat → Bool
  | [], _ => true
  | x :: xs, seen => if seen.testBit x then false else distinctAux xs (seen ||| 2 ^ x)

/-- Hash indices of all nonempty subsets of `sq`'s attack set. -/
def knightIdxListNE (sq : Nat) : List Nat :=
  (List.range' 1 (maskCount sq - 1)).map (knightIdxOfMask sq)

/-- Hash indices of all subsets (including the empty one). -/
def knightIdxListAll (sq : Nat) : List Nat :=
  (List.range (maskCount sq)).map (knightIdxOfMask sq)

/-- The 12 central squares on which the full attack set collides with the
empty subset (both hash to index 0). -/
def knightCollisionSquares : List Nat := [18, 19, 20, 21, 26, 27, 28, 29, 34, 35, 36, 37]

/-- On every square, the nonempty subsets all hash to distinct indices. -/
def knightCheckNE : Bool :=
  (List.range 64).all fun sq => distinctAux (knightIdxListNE sq) 0

/-- Outside the 12 collision squares, all subsets (empty included) hash to
distinct indices. -/
def knightCheckAllOthers : Bool :=
  ((List.range 64).filter fun sq => !(knightCollisionSquares.contains sq)).all
    fun sq => distinctAux (knightIdxListAll sq) 0

set_option maxRecDepth 4000 in
theorem knightCheckNE_eq_true : knightCheckNE = true := by decide

set_option maxRecDepth 4000 in
theorem knightCheckAllOthers_eq_true : knightCheckAllOthers = true := by decide

theorem distinctAux_not_mem (l : List Nat) :
    ∀ seen : Nat, distinctAux l seen = true →
      ∀ x : Nat, seen.testBit x = true → x ∉ l := by
  induction l with
  | nil => intro seen _ x _; exact List.not_mem_nil x
  | cons y ys ih =>
    intro seen h x hx hmem
    rw [distinctAux] at h
    by_cases hy : seen.testBit y
    · rw [if_pos hy] at h; exact Bool.false_ne_true h
    · rw [if_neg hy] at h
      rcases List.mem_cons.mp hmem with rfl | hmem'
      · exact hy hx
      · exact ih (seen ||| 2 ^ y) h x (by rw [Nat.testBit_lor, hx, Bool.true_or]) hmem'

theorem distinctAux_nodup (l : List Nat) :
    ∀ seen : Nat, distinctAux l seen = true → l.Nodup := by
  induction l with
  | nil => intro _ _; exact List.nodup_nil
  | cons y ys ih =>
    intro seen h
    rw [distinctAux] at h
    by_cases hy : seen.testBit y
    · rw [if_pos hy] at h; exact absurd h Bool.false_ne_true
    · rw [if_neg hy] at h
      refine List.nodup_cons.mpr ⟨?_, ih _ h⟩
      exact distinctAux_not_mem ys (seen ||| 2 ^ y) h y
        (by rw [Nat.testBit_lor, Nat.testBit_two_pow_self, Bool.or_true])

/-- The hash value is always an 8-bit index. -/
theorem knight_attack_index_lt (target sq : Nat) : knight_attack_index target sq < 256 := by
  unfold knight_attack_index
  rw [Nat.shiftRight_eq_div_pow, Nat.div_lt_iff_lt_mul (by norm_num : 0 < 2 ^ 56)]
  exact lt_of_lt_of_le (Nat.mod_lt _ (by norm_num)) (by norm_num)

/-- A nonzero mask selects a nonempty (nonzero) subset bitboard. -/
theorem subsetBB_pos (ks : List Nat) :
    ∀ m : Nat, 1 ≤ m → m < 2 ^ ks.length → 0 < subsetBB ks m := by
  induction ks with
  | nil => intro m h1 h2; simp at h2; omega
  | cons k ks ih =>
    intro m h1 h2
    rw [subsetBB]
    by_cases hm : m % 2 = 1
    · rw [if_pos hm]; have := Nat.two_pow_pos k; omega
    · rw [if_neg hm]
      rw [List.length_cons, Nat.pow_succ] at h2
      have h2' : m / 2 < 2 ^ ks.length := by
        rw [Nat.div_lt_iff_lt_mul (by norm_num)]; exact h2
      have h1' : 1 ≤ m / 2 := by omega
      have := ih (m / 2) h1' h2'
      omega

/-- Injectivity of the knight hash over the nonempty subsets of the attack
set of any square, extracted from the computational check. -/
theorem knightIdx_inj_NE (sq : Nat) (h64 : sq < 64) :
    ∀ m1 m2 : Nat, 1 ≤ m1 → m1 < maskCount sq → 1 ≤ m2 → m2 < maskCount sq →
      knightIdxOfMask sq m1 = knightIdxOfMask sq m2 → m1 = m2 := by
  have hall := List.all_eq_true.mp knightCheckNE_eq_true sq (List.mem_range.mpr h64)
  have hnd : (knightIdxListNE sq).Nodup := distinctAux_nodup _ 0 hall
  unfold knightIdxListNE at hnd
  intro m1 m2 h1a h1b h2a h2b heq
  have hcount : 1 ≤ maskCount sq := Nat.one_le_two_pow
  have hm1 : m1 ∈ List.range' 1 (maskCount sq - 1) := List.mem_range'_1.mpr ⟨h1a, by omega⟩
  have hm2 : m2 ∈ List.range' 1 (maskCount sq - 1) := List.mem_range'_1.mpr ⟨h2a, by omega⟩
  exact List.inj_on_of_nodup_map hnd hm1 hm2 heq

/-- Away from the 12 collision squares the hash is injective over all
subsets, the empty one included. -/
theorem knightIdx_inj_All (sq : Nat) (h64 : sq < 64)
    (hout : sq ∉ knightCollisionSquares) :
    ∀ m1 m2 : Nat, m1 < maskCount sq → m2 < maskCount sq →
      knightIdxOfMask sq m1 = knightIdxOfMask sq m2 → m1 = m2 := by
  have hmem : sq ∈ (List.range 64).filter fun s => !(knightCollisionSquares.contains s) := by
    refine List.mem_filter.mpr ⟨List.mem_range.mpr h64, ?_⟩
    simpa using hout
  have hall := List.all_eq_true.mp knightCheckAllOthers_eq_true sq hmem
  have hnd : (knightIdxListAll sq).Nodup := distinctAux_nodup _ 0 hall
  unfold knightIdxListAll at hnd
  intro m1 m2 h1 h2 heq
  exact List.inj_on_of_nodup_map hnd (List.mem_range.mpr h1) (List.mem_range.mpr h2) heq

/-- C2, counterexample to the claim as stated: on square 18 the empty subset
(mask `0`) and the full attack set (mask `255`; square 18 has 8 knight
destinations) are two distinct subsets of the attack set, yet both hash to
the same index (`0`): `knight_attack_index` is not injective over *all*
subsets of the attack set. -/
theorem knight_attack_index_collision :
    (knightAttacks 18).length = 8 ∧
    255 < maskCount 18 ∧
    subsetBB (knightAttacks 18) 255 ≠ subsetBB (knightAttacks 18) 0 ∧
    knightIdxOfMask 18 255 = knightIdxOfMask 18 0 :=
  ⟨by decide, by decide, by decide, by decide⟩

/-- C2 (amended): for every origin square the multiply-shift hash maps every
target into `[0, 256)`, and it is injective over all *nonempty* subsets of
that square's knight-attack set; injectivity over all subsets including the
empty one holds exactly away from the 12 central collision squares, where
the full attack set shares index 0 with the empty subset.  Subsets are
enumerated by bit masks over the (pairwise distinct) attack-square list;
nonzero masks denote nonempty subsets (`0 < subsetBB`). -/
theorem knight_attack_index_perfect_hash (sq : Nat) (h64 : sq < 64) :
    (∀ target : Nat, knight_attack_index target sq < 256) ∧
    (∀ m : Nat, 1 ≤ m → m < maskCount sq → 0 < subsetBB (knightAttacks sq) m) ∧
    (∀ m1 m2 : Nat, 1 ≤ m1 → m1 < maskCount sq → 1 ≤ m2 → m2 < maskCount sq →
      knightIdxOfMask sq m1 = knightIdxOfMask sq m2 → m1 = m2) ∧
    (sq ∉ knightCollisionSquares →
      ∀ m1 m2 : Nat, m1 < maskCount sq → m2 < maskCount sq →
        knightIdxOfMask sq m1 = knightIdxOfMask sq m2 → m1 = m2) :=
  ⟨fun target => knight_attack_index_lt target sq,
   fun m h1 h2 => subsetBB_pos (knightAttacks sq) m h1 h2,
   knightIdx_inj_NE sq h64,
   fun hout => knightIdx_inj_All sq h64 hout⟩

theorem knight_attack_index_perfect_hash_witness :
    (0 : Nat) < 64 ∧
    ((∀ target : Nat, knight_attack_index target 0 < 256) ∧
     (∀ m : Nat, 1 ≤ m → m < maskCount 0 → 0 < subsetBB (knightAttacks 0) m) ∧
     (∀ m1 m2 : Nat, 1 ≤ m1 → m1 < maskCount 0 → 1 ≤ m2 → m2 < maskCount 0 →
       knightIdxOfMask 0 m1 = knightIdxOfMask 0 m2 → m1 = m2) ∧
     ((0 : Nat) ∉ knightCollisionSquares →
       ∀ m1 m2 : Nat, m1 < maskCount 0 → m2 < maskCount 0 →
         knightIdxOfMask 0 m1 = knightIdxOfMask 0 m2 → m1 = m2)) :=
  ⟨by decide, knight_attack_index_perfect_hash 0 (by decide)⟩

/-! ## Multi-dimensional statistics tables (`Stats` over `MultiArray`) -/

/-- Modelled from the spec: `MultiArray` lives in `misc.h`, which is not
under `src/`.  Per the spec it is a fixed-shape array of cells owned by
value, one flat allocation of `sizes[0] * sizes[1] * ...` cells addressed
row-major (last dimension varies fastest).  `Stats<T, D, Sizes...>`
(history.h lines 124–125) instantiates it with `StatsEntry<T, D>` cells,
modelled here as bare stored values. -/
structure MultiArray where
  sizes : List Nat
  data : List Int

/-- Row-major flat index of a coordinate tuple:
`flatIndex (s :: ss) (c :: cs) = c * prod ss + flatIndex ss cs`. -/
def flatIndex : List Nat → List Nat → Nat
  | _, [] => 0
  | [], _ :: _ => 0
  | _ :: ss, c :: cs => c * ss.prod + flatIndex ss cs

/-- The coordinate tuple `cs` is in bounds for dimension sizes `ss`:
same arity and each coordinate strictly below its dimension size. -/
def validCoords (cs ss : List Nat) : Prop :=
  List.Forall₂ (fun c s => c < s) cs ss

/-- Modelled from the spec: construction allocates `prod sizes` cells with
default value zero. -/
def mkMultiArray (ss : List Nat) : MultiArray :=
  ⟨ss, List.replicate ss.prod 0⟩

/-- Reading the cell at a coordinate tuple (`StatsEntry`'s conversion
operator `operator const T&`). -/
def MultiArray.getCell (t : MultiArray) (cs : List Nat) : Int :=
  t.data.getD (flatIndex t.sizes cs) 0

/-- Writing the cell at a coordinate tuple (`StatsEntry::operator=`). -/
def MultiArray.setCell (t : MultiArray) (cs : List Nat) (v : Int) : MultiArray :=
  ⟨t.sizes, t.data.set (flatIndex t.sizes cs) v⟩

/-- The row-major index of an in-bounds tuple is below the cell count. -/
theorem flatIndex_lt {ss cs : List Nat} (h : validCoords cs ss) :
    flatIndex ss cs < ss.prod := by
  induction h with
  | nil => simp [flatIndex]
  | @cons a b l₁ l₂ hab h ih =>
    simp only [flatIndex, List.prod_cons]
    calc a * l₂.prod + flatIndex l₂ l₁ < a * l₂.prod + l₂.prod := by omega
      _ = (a + 1) * l₂.prod := by ring
      _ ≤ b * l₂.prod := Nat.mul_le_mul_right _ hab

theorem rowMajorStep_inj {P a c r1 r2 : Nat} (hr1 : r1 < P) (hr2 : r2 < P)
    (h : a * P + r1 = c * P + r2) : a = c ∧ r1 = r2 := by
  have hac : a = c := by
    rcases Nat.lt_trichotomy a c with hlt | heq | hgt
    · exfalso
      have h2 : a * P + P ≤ c * P := by
        calc a * P + P = (a + 1) * P := by ring
          _ ≤ c * P := Nat.mul_le_mul_right _ hlt
      linarith
    · exact heq
    · exfalso
      have h2 : c * P + P ≤ a * P := by
        calc c * P + P = (c + 1) * P := by ring
          _ ≤ a * P := Nat.mul_le_mul_right _ hgt
      linarith
  subst hac
  exact ⟨rfl, by omega⟩

/-- Distinct in-bounds coordinate tuples have distinct row-major indices. -/
theorem flatIndex_inj {ss cs1 cs2 : List Nat} (h1 : validCoords cs1 ss)
    (h2 : validCoords cs2 ss) (heq : flatIndex ss cs1 = flatIndex ss cs2) :
    cs1 = cs2 := by
  induction h1 generalizing cs2 with
  | nil => cases h2; rfl
  | @cons a b l₁ l₂ hab h1' ih =>
    cases h2 with
    | cons hcb h2' =>
      simp only [flatIndex] at heq
      obtain ⟨hac, hrest⟩ :=
        rowMajorStep_inj (flatIndex_lt h1') (flatIndex_lt h2') heq
      rw [hac, ih h2' hrest]

/-- C7: table indexing round-trip: writing a value at an in-bounds
coordinate tuple and reading it back recovers exactly that value; a write at
one tuple leaves every other in-bounds cell unchanged; and distinct
in-bounds tuples address distinct cells. -/
theorem multiArray_round_trip (t : MultiArray) (hlen : t.data.length = t.sizes.prod)
    (v : Int) (cs1 cs2 : List Nat) (h1 : validCoords cs1 t.sizes)
    (h2 : validCoords cs2 t.sizes) :
    (t.setCell cs1 v).getCell cs1 = v ∧
    (cs1 ≠ cs2 → (t.setCell cs1 v).getCell cs2 = t.getCell cs2) ∧
    (flatIndex t.sizes cs1 = flatIndex t.sizes cs2 → cs1 = cs2) := by
  have hi1 : flatIndex t.sizes cs1 < t.data.length := by
    rw [hlen]; exact flatIndex_lt h1
  refine ⟨?_, ?_, fun h => flatIndex_inj h1 h2 h⟩
  · unfold MultiArray.setCell MultiArray.getCell
    rw [List.getD_eq_getElem?_getD, List.getElem?_set_self hi1]
    rfl
  · intro hne
    have hne' : flatIndex t.sizes cs1 ≠ flatIndex t.sizes cs2 :=
      fun hh => hne (flatIndex_inj h1 h2 hh)
    unfold MultiArray.setCell MultiArray.getCell
    rw [List.getD_eq_getElem?_getD, List.getElem?_set_ne hne',
      ← List.getD_eq_getElem?_getD]

theorem multiArray_round_trip_witness :
    (mkMultiArray [2, 3]).data.length = (mkMultiArray [2, 3]).sizes.prod ∧
    validCoords [1, 2] (mkMultiArray [2, 3]).sizes ∧
    validCoords [0, 1] (mkMultiArray [2, 3]).sizes ∧
    (((mkMultiArray [2, 3]).setCell [1, 2] 7).getCell [1, 2] = 7 ∧
     (([1, 2] : List Nat) ≠ [0, 1] →
       ((mkMultiArray [2, 3]).setCell [1, 2] 7).getCell [0, 1]
         = (mkMultiArray [2, 3]).getCell [0, 1]) ∧
     (flatIndex (mkMultiArray [2, 3]).sizes [1, 2]
         = flatIndex (mkMultiArray [2, 3]).sizes [0, 1] →
       ([1, 2] : List Nat) = [0, 1])) := by
  have vc1 : validCoords [1, 2] (mkMultiArray [2, 3]).sizes :=
    List.Forall₂.cons (by decide) (List.Forall₂.cons (by decide) List.Forall₂.nil)
  have vc2 : validCoords [0, 1] (mkMultiArray [2, 3]).sizes :=
    List.Forall₂.cons (by decide) (List.Forall₂.cons (by decide) List.Forall₂.nil)
  exact ⟨by decide, vc1, vc2,
    multiArray_round_trip (mkMultiArray [2, 3]) (by decide) 7 [1, 2] [0, 1] vc1 vc2⟩

/-- C8: zero initialization at allocation: every in-bounds cell of a freshly
constructed table reads as zero. -/
theorem multiArray_fresh_zero (ss cs : List Nat) (_h : validCoords cs ss) :
    (mkMultiArray ss).getCell cs = 0 := by
  unfold mkMultiArray MultiArray.getCell
  rw [List.getD_eq_getElem?_getD, List.getElem?_replicate]
  split <;> rfl

theorem multiArray_fresh_zero_witness :
    validCoords [1, 2] [2, 3] ∧ (mkMultiArray [2, 3]).getCell [1, 2] = 0 := by
  have vc : validCoords [1, 2] [2, 3] :=
    List.Forall₂.cons (by decide) (List.Forall₂.cons (by decide) List.Forall₂.nil)
  exact ⟨vc, multiArray_fresh_zero [2, 3] [1, 2] vc⟩

end Stockfish
